import Mathlib

/-!
Verification of the confusion-matrix statistics routines of
`src/datasets/utils.py` (functions `get_confusion_matrix` and
`get_unsup_confusion_matrix`).

Embedding choices:
- A class label is a `Fin n` (an in-range integer index), matching the
  caller contract that every label lies in `[0, num_classes)`.
- A dense `num_classes x num_classes` tensor of reals is a function
  `Fin n → Fin n → ℚ`; real arithmetic is modelled exactly by `ℚ`.
- The unguarded row normalization divides by a row sum that may be zero;
  in IEEE floating point a zero denominator yields a non-finite value
  (NaN or an infinity).  Normalized matrices are therefore modelled as
  `Fin n → Fin n → Option ℚ`, where `none` stands for the non-finite
  result of a division by zero and `some q` for the finite quotient.
- Python's `zip` truncates to the shortest sequence, exactly as
  `List.zip` does.
-/

/-- Dense square matrix of exact reals, indexed `[row][col]`. -/
def Mat (n : ℕ) : Type := Fin n → Fin n → ℚ

/-- Matrix whose entries may be the non-finite result of a division by
zero (`none`), as produced by the unguarded torch division. -/
def OMat (n : ℕ) : Type := Fin n → Fin n → Option ℚ

/-- The all-zero matrix, `torch.zeros(num_classes, num_classes)`. -/
def zeroMat (n : ℕ) : Mat n := fun _ _ => 0

/-- In-place accumulation `M[r, c] += v` of the source loops. -/
def bump {n : ℕ} (M : Mat n) (r c : Fin n) (v : ℚ) : Mat n :=
  fun i j => if i = r ∧ j = c then M i j + v else M i j

/-- Row sum `M.sum(1)` at row `i`. -/
def rowSum {n : ℕ} (M : Mat n) (i : Fin n) : ℚ := ∑ j, M i j

/-- Division as torch performs it elementwise: a zero denominator gives a
non-finite value, modelled as `none`. -/
def divOpt (x y : ℚ) : Option ℚ := if y = 0 then none else some (x / y)

/-- Row normalization `M / M.sum(1).unsqueeze(1)`: every entry of row `i`
is divided by the sum of row `i`, with no guard on a zero sum. -/
def rowNormalize {n : ℕ} (M : Mat n) : OMat n :=
  fun i j => divOpt (M i j) (rowSum M i)

/-- Sum of a row of an `OMat`, reading `none` entries as `0`; used only to
state row-sum properties of rows that are entirely finite. -/
def rowSumO {n : ℕ} (M : OMat n) (i : Fin n) : ℚ := ∑ j, (M i j).getD 0

/-- The accumulation loop of `get_confusion_matrix`: one pass over
`zip(targets, biases)`; each pair `(t, p)` performs
`confusion_matrix_org[p, t] += 1` and `confusion_matrix_org_by[t, p] += 1`. -/
def confAcc (n : ℕ) (targets biases : List (Fin n)) : Mat n × Mat n :=
  (targets.zip biases).foldl
    (fun A x => (bump A.1 x.2 x.1 1, bump A.2 x.1 x.2 1))
    (zeroMat n, zeroMat n)

/-- The raw accumulator `confusion_matrix_org` (row = bias, col = target). -/
def confOrg (n : ℕ) (targets biases : List (Fin n)) : Mat n :=
  (confAcc n targets biases).1

/-- The swapped-orientation accumulator `confusion_matrix_org_by`
(row = target, col = bias). -/
def confOrgBy (n : ℕ) (targets biases : List (Fin n)) : Mat n :=
  (confAcc n targets biases).2

/-- The function `get_confusion_matrix(num_classes, targets, biases)`:
returns `(confusion_matrix_org, confusion_matrix, confusion_matrix_by)`,
the raw counts and the two row-normalized matrices. -/
def get_confusion_matrix (n : ℕ) (targets biases : List (Fin n)) :
    Mat n × OMat n × OMat n :=
  (confOrg n targets biases,
   rowNormalize (confOrg n targets biases),
   rowNormalize (confOrgBy n targets biases))

/-- The accumulation loop of `get_unsup_confusion_matrix`: one pass over
`zip(targets, biases, marginals)`; each triple `(t, p, m)` performs
`confusion_matrix_org[p, t] += m` and `confusion_matrix_cnt[p, t] += 1`. -/
def unsupAcc (n : ℕ) (targets biases : List (Fin n)) (marginals : List ℚ) :
    Mat n × Mat n :=
  (targets.zip (biases.zip marginals)).foldl
    (fun A x => (bump A.1 x.2.1 x.1 x.2.2, bump A.2 x.2.1 x.1 1))
    (zeroMat n, zeroMat n)

/-- The weighted accumulator `confusion_matrix_org` of the unsupervised
estimator: sum of marginals at `[bias][target]`. -/
def unsupWS (n : ℕ) (targets biases : List (Fin n)) (marginals : List ℚ) :
    Mat n :=
  (unsupAcc n targets biases marginals).1

/-- The occurrence counter `confusion_matrix_cnt` at `[bias][target]`. -/
def unsupCnt (n : ℕ) (targets biases : List (Fin n)) (marginals : List ℚ) :
    Mat n :=
  (unsupAcc n targets biases marginals).2

/-- The masked write `confusion_matrix_cnt[confusion_matrix_cnt == 0] = 1`. -/
def unsupCntSafe (n : ℕ) (targets biases : List (Fin n))
    (marginals : List ℚ) : Mat n :=
  fun i j =>
    if unsupCnt n targets biases marginals i j = 0 then 1
    else unsupCnt n targets biases marginals i j

/-- The elementwise division
`confusion_matrix_org = confusion_matrix_org / confusion_matrix_cnt`. -/
def unsupMean (n : ℕ) (targets biases : List (Fin n)) (marginals : List ℚ) :
    Mat n :=
  fun i j =>
    unsupWS n targets biases marginals i j /
      unsupCntSafe n targets biases marginals i j

/-- The masked write `confusion_matrix_org[zero_idx] = 1`, where
`zero_idx = (confusion_matrix_org == 0)` was captured right after the
accumulation loop. -/
def unsupMeanSafe (n : ℕ) (targets biases : List (Fin n))
    (marginals : List ℚ) : Mat n :=
  fun i j =>
    if unsupWS n targets biases marginals i j = 0 then 1
    else unsupMean n targets biases marginals i j

/-- The elementwise inversion
`confusion_matrix_org = 1 / confusion_matrix_org`. -/
def unsupInv (n : ℕ) (targets biases : List (Fin n)) (marginals : List ℚ) :
    Mat n :=
  fun i j => 1 / unsupMeanSafe n targets biases marginals i j

/-- The final masked write `confusion_matrix_org[zero_idx] = 0`: the
surprise matrix returned first by the unsupervised estimator. -/
def unsupSurprise (n : ℕ) (targets biases : List (Fin n))
    (marginals : List ℚ) : Mat n :=
  fun i j =>
    if unsupWS n targets biases marginals i j = 0 then 0
    else unsupInv n targets biases marginals i j

/-- The function
`get_unsup_confusion_matrix(num_classes, targets, biases, marginals)`:
returns the surprise matrix and its row normalization. -/
def get_unsup_confusion_matrix (n : ℕ) (targets biases : List (Fin n))
    (marginals : List ℚ) : Mat n × OMat n :=
  (unsupSurprise n targets biases marginals,
   rowNormalize (unsupSurprise n targets biases marginals))

/-- Number of examples of the pair list `L = zip targets biases` that land
in cell `[p][t]` of the `org` orientation (bias is the second component of
each pair, target the first). -/
def cellCount {n : ℕ} (L : List (Fin n × Fin n)) (p t : Fin n) : ℕ :=
  (L.filter fun x => decide (x.2 = p ∧ x.1 = t)).length

/-- Number of examples of the pair list `L` that land in cell `[t][p]` of
the swapped `by` orientation (row = target = first component). -/
def cellCountBy {n : ℕ} (L : List (Fin n × Fin n)) (t p : Fin n) : ℕ :=
  (L.filter fun x => decide (x.1 = t ∧ x.2 = p)).length

/-- Number of examples of the triple list `L = zip targets biases marginals`
that land in cell `[p][t]`. -/
def cellCnt3 {n : ℕ} (L : List (Fin n × Fin n × ℚ)) (p t : Fin n) : ℕ :=
  (L.filter fun x => decide (x.2.1 = p ∧ x.1 = t)).length

/-- Sum of the marginal weights of the examples of the triple list `L` that
land in cell `[p][t]`. -/
def cellWeight {n : ℕ} (L : List (Fin n × Fin n × ℚ)) (p t : Fin n) : ℚ :=
  ((L.filter fun x => decide (x.2.1 = p ∧ x.1 = t)).map fun x => x.2.2).sum

theorem foldl_addCell {n : ℕ} {α : Type} (step : Mat n → α → Mat n)
    (f g : α → Fin n) (val : α → ℚ)
    (hstep : ∀ M x, step M x = bump M (f x) (g x) (val x)) (L : List α)
    (M : Mat n) (i j : Fin n) :
    (L.foldl step M) i j
      = M i j + ((L.filter fun x => decide (f x = i ∧ g x = j)).map val).sum := by
  induction L generalizing M with
  | nil => simp
  | cons a L ih =>
      rw [List.foldl_cons, ih, List.filter_cons, hstep]
      simp only [bump]
      by_cases h : f a = i ∧ g a = j
      · rw [if_pos (show (decide (f a = i ∧ g a = j)) = true by simpa using h),
          if_pos ⟨h.1.symm, h.2.symm⟩, List.map_cons, List.sum_cons]
        ring
      · rw [if_neg (show ¬ (decide (f a = i ∧ g a = j)) = true by simpa using h),
          if_neg (fun hc => h ⟨hc.1.symm, hc.2.symm⟩)]

theorem foldl_pair_split {n : ℕ} {α : Type}
    (s1 s2 : Mat n → α → Mat n) (L : List α) (M N : Mat n) :
    L.foldl (fun A x => (s1 A.1 x, s2 A.2 x)) (M, N)
      = (L.foldl s1 M, L.foldl s2 N) := by
  induction L generalizing M N with
  | nil => rfl
  | cons a L ih =>
      simp only [List.foldl_cons]
      exact ih (s1 M a) (s2 N a)

theorem confOrg_apply (n : ℕ) (t b : List (Fin n)) (i j : Fin n) :
    confOrg n t b i j = (cellCount (t.zip b) i j : ℚ) := by
  unfold confOrg confAcc
  have hsplit := foldl_pair_split (fun A x => bump A x.2 x.1 1)
    (fun A x => bump A x.1 x.2 1) (t.zip b) (zeroMat n) (zeroMat n)
  rw [hsplit]
  dsimp only
  have hcell := foldl_addCell (fun A x => bump A x.2 x.1 1)
    (fun x => x.2) (fun x => x.1) (fun _ => (1 : ℚ)) (fun M x => rfl)
    (t.zip b) (zeroMat n) i j
  rw [hcell]
  unfold cellCount zeroMat
  induction ((t.zip b).filter fun x => decide (x.2 = i ∧ x.1 = j)) with
  | nil => simp
  | cons a L ih => simp_all; ring

theorem confOrgBy_apply (n : ℕ) (t b : List (Fin n)) (i j : Fin n) :
    confOrgBy n t b i j = (cellCountBy (t.zip b) i j : ℚ) := by
  unfold confOrgBy confAcc
  have hsplit := foldl_pair_split (fun A x => bump A x.2 x.1 1)
    (fun A x => bump A x.1 x.2 1) (t.zip b) (zeroMat n) (zeroMat n)
  rw [hsplit]
  dsimp only
  have hcell := foldl_addCell (fun A x => bump A x.1 x.2 1)
    (fun x => x.1) (fun x => x.2) (fun _ => (1 : ℚ)) (fun M x => rfl)
    (t.zip b) (zeroMat n) i j
  rw [hcell]
  unfold cellCountBy zeroMat
  induction ((t.zip b).filter fun x => decide (x.1 = i ∧ x.2 = j)) with
  | nil => simp
  | cons a L ih => simp_all; ring

theorem unsupWS_apply (n : ℕ) (t b : List (Fin n)) (m : List ℚ)
    (i j : Fin n) :
    unsupWS n t b m i j = cellWeight (t.zip (b.zip m)) i j := by
  unfold unsupWS unsupAcc
  have hsplit := foldl_pair_split (fun A x => bump A x.2.1 x.1 x.2.2)
    (fun A x => bump A x.2.1 x.1 1) (t.zip (b.zip m)) (zeroMat n) (zeroMat n)
  rw [hsplit]
  dsimp only
  have hcell := foldl_addCell (fun A x => bump A x.2.1 x.1 x.2.2)
    (fun x => x.2.1) (fun x => x.1) (fun x => x.2.2) (fun M x => rfl)
    (t.zip (b.zip m)) (zeroMat n) i j
  rw [hcell]
  unfold cellWeight zeroMat
  simp

theorem unsupCnt_apply (n : ℕ) (t b : List (Fin n)) (m : List ℚ)
    (i j : Fin n) :
    unsupCnt n t b m i j = (cellCnt3 (t.zip (b.zip m)) i j : ℚ) := by
  unfold unsupCnt unsupAcc
  have hsplit := foldl_pair_split (fun A x => bump A x.2.1 x.1 x.2.2)
    (fun A x => bump A x.2.1 x.1 1) (t.zip (b.zip m)) (zeroMat n) (zeroMat n)
  rw [hsplit]
  dsimp only
  have hcell := foldl_addCell (fun A x => bump A x.2.1 x.1 1)
    (fun x => x.2.1) (fun x => x.1) (fun _ => (1 : ℚ)) (fun M x => rfl)
    (t.zip (b.zip m)) (zeroMat n) i j
  rw [hcell]
  unfold cellCnt3 zeroMat
  induction ((t.zip (b.zip m)).filter fun x => decide (x.2.1 = i ∧ x.1 = j)) with
  | nil => simp
  | cons a L ih => simp_all; ring

theorem take_zip_eq {α β : Type} (l1 : List α) (l2 : List β) (k : ℕ) :
    (l1.zip l2).take k = (l1.take k).zip (l2.take k) := by
  induction l1 generalizing l2 k with
  | nil => simp
  | cons a l1 ih =>
      cases l2 with
      | nil => simp
      | cons c l2 =>
          cases k with
          | zero => simp
          | succ k => simp [List.zip_cons_cons, ih]

theorem zip_take_min {α β : Type} (l1 : List α) (l2 : List β) :
    l1.zip l2 = (l1.take (min l1.length l2.length)).zip
      (l2.take (min l1.length l2.length)) := by
  rw [← take_zip_eq, ← List.length_zip, List.take_length]

theorem cellCount_cons {n : ℕ} (a : Fin n × Fin n) (L : List (Fin n × Fin n))
    (i j : Fin n) :
    (cellCount (a :: L) i j : ℚ)
      = (if a.2 = i ∧ a.1 = j then 1 else 0) + (cellCount L i j : ℚ) := by
  unfold cellCount
  rw [List.filter_cons]
  by_cases h : a.2 = i ∧ a.1 = j
  · rw [if_pos (show (decide (a.2 = i ∧ a.1 = j)) = true by simpa using h),
      if_pos h, List.length_cons]
    push_cast
    ring
  · rw [if_neg (show ¬ (decide (a.2 = i ∧ a.1 = j)) = true by simpa using h),
      if_neg h, zero_add]

theorem sum_cellCount {n : ℕ} (L : List (Fin n × Fin n)) :
    ∑ i : Fin n, ∑ j : Fin n, (cellCount L i j : ℚ) = L.length := by
  induction L with
  | nil => simp [cellCount]
  | cons a L ih =>
      simp only [cellCount_cons, Finset.sum_add_distrib, ih]
      have hone : ∑ i : Fin n, ∑ j : Fin n,
          (if a.2 = i ∧ a.1 = j then (1 : ℚ) else 0) = 1 := by
        simp [ite_and, Finset.sum_ite_eq]
      rw [hone, List.length_cons]
      push_cast
      ring

theorem cellWeight_zero_of_cnt {n : ℕ} (L : List (Fin n × Fin n × ℚ))
    (p q : Fin n) (h : cellCnt3 L p q = 0) : cellWeight L p q = 0 := by
  unfold cellCnt3 at h
  unfold cellWeight
  rw [List.length_eq_zero.mp h]
  simp

theorem unsupWS_zero_of_cnt (n : ℕ) (t b : List (Fin n)) (m : List ℚ)
    (p q : Fin n) (h : unsupCnt n t b m p q = 0) :
    unsupWS n t b m p q = 0 := by
  rw [unsupCnt_apply] at h
  rw [unsupWS_apply]
  exact cellWeight_zero_of_cnt _ _ _ (Nat.cast_eq_zero.mp h)

theorem unsupSurprise_of_ws_zero (n : ℕ) (t b : List (Fin n)) (m : List ℚ)
    (p q : Fin n) (h : unsupWS n t b m p q = 0) :
    unsupSurprise n t b m p q = 0 := by
  unfold unsupSurprise
  rw [if_pos h]

theorem unsupSurprise_of_ws_ne_zero (n : ℕ) (t b : List (Fin n)) (m : List ℚ)
    (p q : Fin n) (h : unsupWS n t b m p q ≠ 0) :
    unsupSurprise n t b m p q
      = unsupCnt n t b m p q / unsupWS n t b m p q := by
  have hcnt : unsupCnt n t b m p q ≠ 0 := fun hc => h (unsupWS_zero_of_cnt n t b m p q hc)
  unfold unsupSurprise unsupInv unsupMeanSafe unsupMean unsupCntSafe
  rw [if_neg h, if_neg h, if_neg hcnt, one_div_div]

theorem rowNormalize_of_rowSum_ne_zero {n : ℕ} (M : Mat n) (i : Fin n)
    (h : rowSum M i ≠ 0) :
    (∀ j, rowNormalize M i j = some (M i j / rowSum M i))
      ∧ rowSumO (rowNormalize M) i = 1 := by
  have hj : ∀ j, rowNormalize M i j = some (M i j / rowSum M i) := by
    intro j
    unfold rowNormalize divOpt
    rw [if_neg h]
  refine ⟨hj, ?_⟩
  unfold rowSumO
  have : ∀ j : Fin n, ((rowNormalize M i j).getD 0) = M i j / rowSum M i := by
    intro j
    rw [hj j]
    rfl
  rw [Finset.sum_congr rfl fun j _ => this j, ← Finset.sum_div]
  exact div_self h

theorem rowNormalize_of_rowSum_zero {n : ℕ} (M : Mat n) (i : Fin n)
    (h : rowSum M i = 0) : ∀ j, rowNormalize M i j = none := by
  intro j
  unfold rowNormalize divOpt
  rw [if_pos h]

theorem confAcc_congr (n : ℕ) {t b t2 b2 : List (Fin n)}
    (h : t.zip b = t2.zip b2) : confAcc n t b = confAcc n t2 b2 := by
  unfold confAcc
  rw [h]

theorem get_confusion_matrix_congr (n : ℕ) {t b t2 b2 : List (Fin n)}
    (h : t.zip b = t2.zip b2) :
    get_confusion_matrix n t b = get_confusion_matrix n t2 b2 := by
  unfold get_confusion_matrix confOrg confOrgBy
  rw [confAcc_congr n h]

theorem unsupAcc_congr (n : ℕ) {t b t2 b2 : List (Fin n)} {m m2 : List ℚ}
    (h : t.zip (b.zip m) = t2.zip (b2.zip m2)) :
    unsupAcc n t b m = unsupAcc n t2 b2 m2 := by
  unfold unsupAcc
  rw [h]

theorem get_unsup_confusion_matrix_congr (n : ℕ) {t b t2 b2 : List (Fin n)}
    {m m2 : List ℚ} (h : t.zip (b.zip m) = t2.zip (b2.zip m2)) :
    get_unsup_confusion_matrix n t b m
      = get_unsup_confusion_matrix n t2 b2 m2 := by
  unfold get_unsup_confusion_matrix unsupSurprise unsupInv unsupMeanSafe
    unsupMean unsupCntSafe unsupWS unsupCnt
  rw [unsupAcc_congr n h]

theorem confOrg_perm (n : ℕ) {t b t2 b2 : List (Fin n)}
    (h : (t.zip b).Perm (t2.zip b2)) : confOrg n t b = confOrg n t2 b2 := by
  funext i j
  rw [confOrg_apply, confOrg_apply]
  unfold cellCount
  exact_mod_cast (h.filter _).length_eq

theorem confOrgBy_perm (n : ℕ) {t b t2 b2 : List (Fin n)}
    (h : (t.zip b).Perm (t2.zip b2)) :
    confOrgBy n t b = confOrgBy n t2 b2 := by
  funext i j
  rw [confOrgBy_apply, confOrgBy_apply]
  unfold cellCountBy
  exact_mod_cast (h.filter _).length_eq

theorem unsupWS_perm (n : ℕ) {t b t2 b2 : List (Fin n)} {m m2 : List ℚ}
    (h : (t.zip (b.zip m)).Perm (t2.zip (b2.zip m2))) :
    unsupWS n t b m = unsupWS n t2 b2 m2 := by
  funext i j
  rw [unsupWS_apply, unsupWS_apply]
  unfold cellWeight
  exact ((h.filter _).map _).sum_eq

theorem unsupCnt_perm (n : ℕ) {t b t2 b2 : List (Fin n)} {m m2 : List ℚ}
    (h : (t.zip (b.zip m)).Perm (t2.zip (b2.zip m2))) :
    unsupCnt n t b m = unsupCnt n t2 b2 m2 := by
  funext i j
  rw [unsupCnt_apply, unsupCnt_apply]
  unfold cellCnt3
  exact_mod_cast (h.filter _).length_eq

theorem get_unsup_confusion_matrix_perm (n : ℕ) {t b t2 b2 : List (Fin n)}
    {m m2 : List ℚ}
    (h : (t.zip (b.zip m)).Perm (t2.zip (b2.zip m2))) :
    get_unsup_confusion_matrix n t b m
      = get_unsup_confusion_matrix n t2 b2 m2 := by
  unfold get_unsup_confusion_matrix unsupSurprise unsupInv unsupMeanSafe
    unsupMean unsupCntSafe
  simp only [unsupWS_perm n h, unsupCnt_perm n h]

/-- C1: for equal-length in-range inputs the first matrix returned by
`get_confusion_matrix` holds at `[b][t]` the number of examples whose bias
is `b` and whose target is `t`, the entries of that matrix sum to the
number of examples, and on `num_classes = 2`, `targets = [0,0,1,1]`,
`biases = [0,1,0,1]` the function returns `raw = [[1,1],[1,1]]` and
`normalized = [[1/2,1/2],[1/2,1/2]]`. -/
theorem claim_C1 (n : ℕ) (targets biases : List (Fin n))
    (hlen : targets.length = biases.length) (p q : Fin n) :
    (get_confusion_matrix n targets biases).1 p q
        = (cellCount (targets.zip biases) p q : ℚ)
      ∧ (∑ i : Fin n, ∑ j : Fin n,
          (get_confusion_matrix n targets biases).1 i j) = (targets.length : ℚ)
      ∧ (∀ i j : Fin 2,
          (get_confusion_matrix 2 [0, 0, 1, 1] [0, 1, 0, 1]).1 i j = 1
            ∧ (get_confusion_matrix 2 [0, 0, 1, 1] [0, 1, 0, 1]).2.1 i j
                = some (1 / 2)) := by
  refine ⟨confOrg_apply n targets biases p q, ?_, ?_⟩
  · have hsum : (∑ i : Fin n, ∑ j : Fin n,
        (get_confusion_matrix n targets biases).1 i j)
        = ∑ i : Fin n, ∑ j : Fin n, (cellCount (targets.zip biases) i j : ℚ) := by
      refine Finset.sum_congr rfl fun i _ => Finset.sum_congr rfl fun j _ => ?_
      exact confOrg_apply n targets biases i j
    rw [hsum, sum_cellCount, List.length_zip, hlen, min_self]
  · intro i j
    fin_cases i <;> fin_cases j <;>
      refine ⟨?_, ?_⟩ <;>
      norm_num [get_confusion_matrix, confOrg, confAcc, bump, zeroMat,
        List.zip, rowNormalize, rowSum, divOpt, Fin.sum_univ_two]

/-- Witness for C1 at `num_classes = 2`, `targets = [0,0,1,1]`,
`biases = [0,1,0,1]`: the lengths agree and the stated count, total and
scenario values hold. -/
theorem claim_C1_witness :
    ([(0 : Fin 2), 0, 1, 1].length = [(0 : Fin 2), 1, 0, 1].length)
      ∧ ((get_confusion_matrix 2 [0, 0, 1, 1] [0, 1, 0, 1]).1 0 0
          = (cellCount ([(0 : Fin 2), 0, 1, 1].zip [(0 : Fin 2), 1, 0, 1]) 0 0 : ℚ)
        ∧ (∑ i : Fin 2, ∑ j : Fin 2,
            (get_confusion_matrix 2 [0, 0, 1, 1] [0, 1, 0, 1]).1 i j)
          = (([(0 : Fin 2), 0, 1, 1] : List (Fin 2)).length : ℚ)
        ∧ (∀ i j : Fin 2,
            (get_confusion_matrix 2 [0, 0, 1, 1] [0, 1, 0, 1]).1 i j = 1
              ∧ (get_confusion_matrix 2 [0, 0, 1, 1] [0, 1, 0, 1]).2.1 i j
                  = some (1 / 2))) :=
  ⟨rfl, claim_C1 2 [0, 0, 1, 1] [0, 1, 0, 1] rfl 0 0⟩

/-- C2: in `get_unsup_confusion_matrix`, a cell that no example ever hits
(occurrence count zero) has surprise exactly `0`; in particular with
`num_classes = 2` and a bias sequence in which label `1` never occurs,
every entry of row `1` of the surprise matrix is `0`. -/
theorem claim_C2 :
    (∀ (n : ℕ) (targets biases : List (Fin n)) (marginals : List ℚ)
        (p q : Fin n), unsupCnt n targets biases marginals p q = 0 →
        (get_unsup_confusion_matrix n targets biases marginals).1 p q = 0)
      ∧ ∀ q : Fin 2,
        (get_unsup_confusion_matrix 2 [0, 1] [0, 0] [1, 1]).1 1 q = 0 := by
  constructor
  · intro n targets biases marginals p q h
    exact unsupSurprise_of_ws_zero n targets biases marginals p q
      (unsupWS_zero_of_cnt n targets biases marginals p q h)
  · intro q
    fin_cases q <;>
      norm_num [get_unsup_confusion_matrix, unsupSurprise, unsupInv,
        unsupMeanSafe, unsupMean, unsupCntSafe, unsupCnt, unsupWS, unsupAcc,
        bump, zeroMat, List.zip]

/-- Witness for C2 at `num_classes = 2`, `targets = [0,1]`,
`biases = [0,0]`, `marginals = [1,1]`, cell `[1][0]`: the occurrence count
is zero and the surprise entry is zero. -/
theorem claim_C2_witness :
    unsupCnt 2 [0, 1] [0, 0] [1, 1] 1 0 = 0
      ∧ (get_unsup_confusion_matrix 2 [0, 1] [0, 0] [1, 1]).1 1 0 = 0 :=
  ⟨by
    norm_num [unsupCnt, unsupAcc, bump, zeroMat, List.zip],
   claim_C2.1 2 [0, 1] [0, 0] [1, 1] 1 0
    (by norm_num [unsupCnt, unsupAcc, bump, zeroMat, List.zip])⟩

/-- C3: in `get_unsup_confusion_matrix`, every cell whose accumulated
weighted sum is nonzero has surprise equal to `count / weighted_sum`,
where the weighted sum accumulates the marginals of the examples landing
in the cell and the count their number. -/
theorem claim_C3 (n : ℕ) (targets biases : List (Fin n)) (marginals : List ℚ)
    (p q : Fin n) (h : unsupWS n targets biases marginals p q ≠ 0) :
    (get_unsup_confusion_matrix n targets biases marginals).1 p q
        = unsupCnt n targets biases marginals p q /
            unsupWS n targets biases marginals p q
      ∧ unsupWS n targets biases marginals p q
        = cellWeight (targets.zip (biases.zip marginals)) p q
      ∧ unsupCnt n targets biases marginals p q
        = (cellCnt3 (targets.zip (biases.zip marginals)) p q : ℚ) :=
  ⟨unsupSurprise_of_ws_ne_zero n targets biases marginals p q h,
   unsupWS_apply n targets biases marginals p q,
   unsupCnt_apply n targets biases marginals p q⟩

/-- Witness for C3 at `num_classes = 1`, one example with marginal `2`:
the weighted sum is `2 ≠ 0` and the surprise entry is `1 / 2`. -/
theorem claim_C3_witness :
    unsupWS 1 [0] [0] [2] 0 0 ≠ 0
      ∧ (get_unsup_confusion_matrix 1 [0] [0] [2]).1 0 0
        = unsupCnt 1 [0] [0] [2] 0 0 / unsupWS 1 [0] [0] [2] 0 0 :=
  ⟨by
    norm_num [unsupWS, unsupAcc, bump, zeroMat, List.zip],
   (claim_C3 1 [0] [0] [2] 0 0
    (by norm_num [unsupWS, unsupAcc, bump, zeroMat, List.zip])).1⟩

/-- C4: in each normalized matrix returned (the supervised `normalized`
and `normalized_by`, and the unsupervised `normalized`), every row whose
unnormalized row total is nonzero is entirely finite and sums to exactly
`1`; rows with zero total are exempt. -/
theorem claim_C4 (n : ℕ) (targets biases : List (Fin n)) (marginals : List ℚ)
    (i : Fin n) :
    (rowSum (confOrg n targets biases) i ≠ 0 →
        (∀ j, (get_confusion_matrix n targets biases).2.1 i j ≠ none)
          ∧ rowSumO (get_confusion_matrix n targets biases).2.1 i = 1)
      ∧ (rowSum (confOrgBy n targets biases) i ≠ 0 →
          (∀ j, (get_confusion_matrix n targets biases).2.2 i j ≠ none)
            ∧ rowSumO (get_confusion_matrix n targets biases).2.2 i = 1)
      ∧ (rowSum (unsupSurprise n targets biases marginals) i ≠ 0 →
          (∀ j, (get_unsup_confusion_matrix n targets biases marginals).2 i j
              ≠ none)
            ∧ rowSumO (get_unsup_confusion_matrix n targets biases marginals).2
                i = 1) := by
  refine ⟨fun h => ?_, fun h => ?_, fun h => ?_⟩
  · have hr := rowNormalize_of_rowSum_ne_zero (confOrg n targets biases) i h
    exact ⟨fun j => by rw [show (get_confusion_matrix n targets biases).2.1
      = rowNormalize (confOrg n targets biases) from rfl, hr.1 j]; simp, hr.2⟩
  · have hr := rowNormalize_of_rowSum_ne_zero (confOrgBy n targets biases) i h
    exact ⟨fun j => by rw [show (get_confusion_matrix n targets biases).2.2
      = rowNormalize (confOrgBy n targets biases) from rfl, hr.1 j]; simp, hr.2⟩
  · have hr := rowNormalize_of_rowSum_ne_zero
      (unsupSurprise n targets biases marginals) i h
    exact ⟨fun j => by
      rw [show (get_unsup_confusion_matrix n targets biases marginals).2
        = rowNormalize (unsupSurprise n targets biases marginals) from rfl,
        hr.1 j]; simp, hr.2⟩

/-- Witness for C4 at `num_classes = 1` with one example of marginal `2`:
all three row totals are nonzero and each normalized row sums to `1`. -/
theorem claim_C4_witness :
    (rowSum (confOrg 1 [0] [0]) 0 ≠ 0
        ∧ rowSumO (get_confusion_matrix 1 [0] [0]).2.1 0 = 1)
      ∧ (rowSum (confOrgBy 1 [0] [0]) 0 ≠ 0
        ∧ rowSumO (get_confusion_matrix 1 [0] [0]).2.2 0 = 1)
      ∧ (rowSum (unsupSurprise 1 [0] [0] [2]) 0 ≠ 0
        ∧ rowSumO (get_unsup_confusion_matrix 1 [0] [0] [2]).2 0 = 1) :=
  ⟨⟨by
      norm_num [rowSum, confOrg, confAcc, bump, zeroMat, List.zip,
        Fin.sum_univ_succ],
    ((claim_C4 1 [0] [0] [2] 0).1 (by
      norm_num [rowSum, confOrg, confAcc, bump, zeroMat, List.zip,
        Fin.sum_univ_succ])).2⟩,
   ⟨by
      norm_num [rowSum, confOrgBy, confAcc, bump, zeroMat, List.zip,
        Fin.sum_univ_succ],
    ((claim_C4 1 [0] [0] [2] 0).2.1 (by
      norm_num [rowSum, confOrgBy, confAcc, bump, zeroMat, List.zip,
        Fin.sum_univ_succ])).2⟩,
   ⟨by
      norm_num [rowSum, unsupSurprise, unsupInv, unsupMeanSafe, unsupMean,
        unsupCntSafe, unsupCnt, unsupWS, unsupAcc, bump, zeroMat, List.zip,
        Fin.sum_univ_succ],
    ((claim_C4 1 [0] [0] [2] 0).2.2 (by
      norm_num [rowSum, unsupSurprise, unsupInv, unsupMeanSafe, unsupMean,
        unsupCntSafe, unsupCnt, unsupWS, unsupAcc, bump, zeroMat, List.zip,
        Fin.sum_univ_succ])).2⟩⟩

/-- Counterexample to C5: on `num_classes = 2`, `targets = [0]`,
`biases = [0]`, row `1` of the raw matrix has total `0`, yet the
corresponding row of the returned `normalized` matrix is not all-zero: its
entry `[1][0]` is the non-finite result of the unguarded `0 / 0` division
(modelled `none`), not the finite value `0`. -/
theorem claim_C5_counterexample :
    rowSum (confOrg 2 [0] [0]) 1 = 0
      ∧ (get_confusion_matrix 2 [0] [0]).2.1 1 0 ≠ some 0
      ∧ (get_confusion_matrix 2 [0] [0]).2.1 1 0 = none := by
  refine ⟨?_, ?_, ?_⟩ <;>
    norm_num [get_confusion_matrix, confOrg, confAcc, bump, zeroMat,
      List.zip, rowNormalize, rowSum, divOpt, Fin.sum_univ_two] <;>
    simp

/-- C5 as amended: in `get_confusion_matrix`, a row of either normalized
matrix whose raw row total is zero is not left all-zero; every entry of
that row is the non-finite result (NaN) of the unguarded division by the
zero row sum, modelled as `none`. -/
theorem claim_C5 (n : ℕ) (targets biases : List (Fin n)) (i : Fin n) :
    (rowSum (confOrg n targets biases) i = 0 →
        ∀ j, (get_confusion_matrix n targets biases).2.1 i j = none)
      ∧ (rowSum (confOrgBy n targets biases) i = 0 →
        ∀ j, (get_confusion_matrix n targets biases).2.2 i j = none) :=
  ⟨fun h => rowNormalize_of_rowSum_zero (confOrg n targets biases) i h,
   fun h => rowNormalize_of_rowSum_zero (confOrgBy n targets biases) i h⟩

/-- Witness for amended C5 at `num_classes = 2`, `targets = [0]`,
`biases = [0]`, row `1`: the raw row total is zero and the normalized
entries of that row are non-finite. -/
theorem claim_C5_witness :
    rowSum (confOrg 2 [0] [0]) 1 = 0
      ∧ ∀ j, (get_confusion_matrix 2 [0] [0]).2.1 1 j = none :=
  ⟨by
    norm_num [rowSum, confOrg, confAcc, bump, zeroMat, List.zip,
      Fin.sum_univ_two],
   (claim_C5 2 [0] [0] 1).1 (by
    norm_num [rowSum, confOrg, confAcc, bump, zeroMat, List.zip,
      Fin.sum_univ_two])⟩

/-- C6: the raw accumulator behind `normalized_by` is the transpose of the
raw accumulator behind `normalized` (accumulation at the swapped
orientation), but after row normalization the two returned matrices are
not transposes of each other: on `targets = [0,0,1]`, `biases = [0,0,0]`
the entry `[0][0]` of `normalized_by` differs from entry `[0][0]` of
`normalized`. -/
theorem claim_C6 :
    (∀ (n : ℕ) (targets biases : List (Fin n)) (i j : Fin n),
        confOrgBy n targets biases i j = confOrg n targets biases j i)
      ∧ (get_confusion_matrix 2 [0, 0, 1] [0, 0, 0]).2.2 0 0
          ≠ (get_confusion_matrix 2 [0, 0, 1] [0, 0, 0]).2.1 0 0 := by
  constructor
  · intro n targets biases i j
    rw [confOrgBy_apply, confOrg_apply]
    unfold cellCountBy cellCount
    have hf : List.filter (fun x => decide (x.1 = i ∧ x.2 = j))
          (targets.zip biases)
        = List.filter (fun x => decide (x.2 = j ∧ x.1 = i))
          (targets.zip biases) :=
      List.filter_congr fun a _ => decide_eq_decide.mpr and_comm
    rw [hf]
  · norm_num [get_confusion_matrix, confOrg, confOrgBy, confAcc, bump,
      zeroMat, List.zip, rowNormalize, rowSum, divOpt, Fin.sum_univ_two]

/-- C7: permuting the examples (pairs for `get_confusion_matrix`, triples
for `get_unsup_confusion_matrix`) leaves every returned matrix unchanged:
both functions are order-independent pure accumulations. -/
theorem claim_C7 (n : ℕ) (targets biases targets2 biases2 : List (Fin n))
    (marginals marginals2 : List ℚ)
    (h1 : (targets.zip biases).Perm (targets2.zip biases2))
    (h2 : (targets.zip (biases.zip marginals)).Perm
        (targets2.zip (biases2.zip marginals2))) :
    get_confusion_matrix n targets biases
        = get_confusion_matrix n targets2 biases2
      ∧ get_unsup_confusion_matrix n targets biases marginals
        = get_unsup_confusion_matrix n targets2 biases2 marginals2 := by
  constructor
  · unfold get_confusion_matrix
    rw [confOrg_perm n h1, confOrgBy_perm n h1]
  · exact get_unsup_confusion_matrix_perm n h2

/-- Witness for C7: reversing the two examples of a concrete input leaves
the outputs of both functions unchanged. -/
theorem claim_C7_witness :
    (([(0 : Fin 2), 1].zip [(0 : Fin 2), 1]).Perm
        ([(1 : Fin 2), 0].zip [(1 : Fin 2), 0]))
      ∧ (([(0 : Fin 2), 1].zip ([(0 : Fin 2), 1].zip [(3 : ℚ), 4])).Perm
          ([(1 : Fin 2), 0].zip ([(1 : Fin 2), 0].zip [(4 : ℚ), 3])))
      ∧ get_confusion_matrix 2 [0, 1] [0, 1]
        = get_confusion_matrix 2 [1, 0] [1, 0]
      ∧ get_unsup_confusion_matrix 2 [0, 1] [0, 1] [3, 4]
        = get_unsup_confusion_matrix 2 [1, 0] [1, 0] [4, 3] := by
  have h1 : (([(0 : Fin 2), 1].zip [(0 : Fin 2), 1]).Perm
      ([(1 : Fin 2), 0].zip [(1 : Fin 2), 0])) := by
    show ([((0 : Fin 2), (0 : Fin 2)), (1, 1)]).Perm
      [((1 : Fin 2), (1 : Fin 2)), (0, 0)]
    exact List.Perm.swap _ _ _
  have h2 : (([(0 : Fin 2), 1].zip ([(0 : Fin 2), 1].zip [(3 : ℚ), 4])).Perm
      ([(1 : Fin 2), 0].zip ([(1 : Fin 2), 0].zip [(4 : ℚ), 3]))) := by
    show ([((0 : Fin 2), (0 : Fin 2), (3 : ℚ)), (1, 1, 4)]).Perm
      [((1 : Fin 2), (1 : Fin 2), (4 : ℚ)), (0, 0, 3)]
    exact List.Perm.swap _ _ _
  exact ⟨h1, h2,
    (claim_C7 2 [0, 1] [0, 1] [1, 0] [1, 0] [3, 4] [4, 3] h1 h2).1,
    (claim_C7 2 [0, 1] [0, 1] [1, 0] [1, 0] [3, 4] [4, 3] h1 h2).2⟩

/-- C8: in `get_unsup_confusion_matrix`, a cell that does occur but whose
examples all carry marginal weight `0` (count nonzero, accumulated
weighted sum zero) is caught by the zero mask and ends with surprise `0`:
the mask is keyed on the weighted sum, not on the count. -/
theorem claim_C8 (n : ℕ) (targets biases : List (Fin n)) (marginals : List ℚ)
    (p q : Fin n) (hc : unsupCnt n targets biases marginals p q ≠ 0)
    (hw : unsupWS n targets biases marginals p q = 0) :
    (get_unsup_confusion_matrix n targets biases marginals).1 p q = 0 :=
  unsupSurprise_of_ws_zero n targets biases marginals p q hw

/-- Witness for C8 at `num_classes = 1`, one example with marginal `0`:
the cell occurs once, its weighted sum is zero, and its surprise is `0`. -/
theorem claim_C8_witness :
    unsupCnt 1 [0] [0] [0] 0 0 ≠ 0
      ∧ unsupWS 1 [0] [0] [0] 0 0 = 0
      ∧ (get_unsup_confusion_matrix 1 [0] [0] [0]).1 0 0 = 0 :=
  ⟨by norm_num [unsupCnt, unsupAcc, bump, zeroMat, List.zip],
   by norm_num [unsupWS, unsupAcc, bump, zeroMat, List.zip],
   claim_C8 1 [0] [0] [0] 0 0
    (by norm_num [unsupCnt, unsupAcc, bump, zeroMat, List.zip])
    (by norm_num [unsupWS, unsupAcc, bump, zeroMat, List.zip])⟩

/-- C9: with sequences of unequal lengths both functions return normally
and process exactly the first `min` of the lengths of their input
sequences (`zip` truncation): all outputs coincide with the outputs on the
truncated inputs, so the extra tail elements have no effect. -/
theorem claim_C9 (n : ℕ) (targets biases : List (Fin n))
    (marginals : List ℚ) :
    get_confusion_matrix n targets biases
        = get_confusion_matrix n
            (targets.take (min targets.length biases.length))
            (biases.take (min targets.length biases.length))
      ∧ get_unsup_confusion_matrix n targets biases marginals
        = get_unsup_confusion_matrix n
            (targets.take
              (min targets.length (min biases.length marginals.length)))
            (biases.take
              (min targets.length (min biases.length marginals.length)))
            (marginals.take
              (min targets.length (min biases.length marginals.length))) := by
  constructor
  · exact get_confusion_matrix_congr n (zip_take_min targets biases)
  · refine get_unsup_confusion_matrix_congr n ?_
    have h0 := zip_take_min targets (biases.zip marginals)
    rw [List.length_zip, take_zip_eq] at h0
    exact h0

/-- C10: the normalization step does not disturb the raw count
accumulator: the first matrix returned by `get_confusion_matrix` is the
untouched accumulator and still holds the unnormalized per-cell counts
after the normalized matrices are computed. -/
theorem claim_C10 (n : ℕ) (targets biases : List (Fin n)) (i j : Fin n) :
    (get_confusion_matrix n targets biases).1
        = confOrg n targets biases
      ∧ (get_confusion_matrix n targets biases).1 i j
        = (cellCount (targets.zip biases) i j : ℚ) :=
  ⟨rfl, confOrg_apply n targets biases i j⟩
